import Mathlib

/-!
# Status-event timeline reconstruction: a shallow embedding

This file embeds the status-timeline core of `fpla/sources.py`
(`StatusSource.parse_status` and its helpers) and proves properties of it.

Modelling conventions:
* A DataFrame row of the STATUS table is an `Event`; a per-entity frame is a
  `List Event` and pandas positional indices are `Nat` positions into the list.
* Missing values (`NaN` / `NaT`) are `Option.none`; pandas equality
  comparisons against a missing value are `false`, mirrored by `optEq`.
* A resolved `status_date` is modelled by its day ordinal (`Nat`): only its
  equality/order structure is used by ranking and reconciliation.
* `Series.rank(method='min', na_option='keep')` is `rankStep`:
  `1 + (number of same-entity events with a strictly earlier present date)`,
  `none` on a missing date.
* `Series.value_counts()` enumerates the distinct present values in first
  occurrence order and sorts them by count, descending (`sortByCountDesc`,
  a stable insertion sort; pandas leaves the order of equal counts
  unspecified).
* `itertools.permutations` is `perms`, generating permutations in the same
  (input-index lexicographic) order.
* The `assert` at the end of `resolve_duplicate_steps` is the `Except.error`
  branch, carrying exactly the assertion message.
-/

/-- One status-change record (a row of the STATUS frame) after
`parse_status` has split the `"old to new"` strings and resolved the date.
`old_prob`/`new_prob` are numeric (`maps.STATUS_NUMERIC`), the status codes
are strings, and any of them may be missing when the raw field was
malformed. -/
structure Event where
  player_id : Int
  status_date : Option Nat
  old_prob : Option Int
  new_prob : Option Int
  old_status : Option String
  new_status : Option String
  step : Option Int
  news : String
  deriving Repr, DecidableEq, Inhabited

/-- Pandas-style equality: a comparison involving a missing value is false
(`NaN == x` is never true in a DataFrame mask). -/
def optEq {α : Type} [DecidableEq α] : Option α → Option α → Bool
  | some a, some b => a == b
  | _, _ => false

/-! ## DateResolver: `StatusSource.fix_date` -/

/-- A full calendar date as produced by `fix_date` (year attached to the
parsed day/month). -/
structure SeasonDate where
  year : Int
  month : Nat
  day : Nat
  deriving Repr, DecidableEq

/-- `%b` month abbreviations (C locale), matched case-insensitively as
`datetime.strptime` does. -/
def monthNum (cs : List Char) : Option Nat :=
  match cs.map Char.toLower with
  | ['j', 'a', 'n'] => some 1
  | ['f', 'e', 'b'] => some 2
  | ['m', 'a', 'r'] => some 3
  | ['a', 'p', 'r'] => some 4
  | ['m', 'a', 'y'] => some 5
  | ['j', 'u', 'n'] => some 6
  | ['j', 'u', 'l'] => some 7
  | ['a', 'u', 'g'] => some 8
  | ['s', 'e', 'p'] => some 9
  | ['o', 'c', 't'] => some 10
  | ['n', 'o', 'v'] => some 11
  | ['d', 'e', 'c'] => some 12
  | _ => none

/-- Days in each month of the `strptime` default year 1900 — which is not a
leap year, so February has 28 days. -/
def monthLen1900 (m : Nat) : Nat :=
  if m = 2 then 28
  else if m = 4 ∨ m = 6 ∨ m = 9 ∨ m = 11 then 30
  else 31

/-- Split a character list at every space, as `String.splitOn " "` does
(`"a b"` gives `["a", "b"]`, consecutive spaces give empty fields). -/
def splitSpace : List Char → List (List Char)
  | [] => [[]]
  | c :: rest =>
    if c = ' ' then [] :: splitSpace rest
    else
      match splitSpace rest with
      | [] => [[c]]
      | w :: ws => (c :: w) :: ws

/-- Value of one decimal digit character. -/
def digitVal (c : Char) : Option Nat :=
  if c.isDigit then some (c.toNat - 48) else none

/-- The `%d` field: one or two decimal digits. -/
def dayVal : List Char → Option Nat
  | [c] => digitVal c
  | [c1, c2] => do
    let d1 ← digitVal c1
    let d2 ← digitVal c2
    some (10 * d1 + d2)
  | _ => none

/-- `datetime.strptime(s, '%d %b')`: a 1–2 digit day, a space, and a month
abbreviation; the day must be a valid day of that month in the default year
1900, otherwise parsing raises (here: `none`). -/
def strptimeDayMonth (s : String) : Option (Nat × Nat) :=
  match splitSpace s.data with
  | [d, m] =>
    match dayVal d, monthNum m with
    | some day, some mon =>
      if 1 ≤ day ∧ day ≤ monthLen1900 mon then some (day, mon) else none
    | _, _ => none
  | _ => none

/-- `StatusSource.fix_date`: parse the day/month string; on failure return
missing (`pd.NaT`).  On success attach the season year: months after June
belong to `base_year`, the rest to `base_year + 1`. -/
def fix_date (date_string : String) (base_year : Int) : Option SeasonDate :=
  match strptimeDayMonth date_string with
  | none => none
  | some (day, mon) =>
    if mon > 6 then some ⟨base_year, mon, day⟩
    else some ⟨base_year + 1, mon, day⟩

/-! ## StepAssigner: `df.groupby(['player_id'])['status_date'].rank(method='min')` -/

/-- Whether `e2` is an event of the same entity as `e` with a present date
strictly earlier than `d`. -/
def earlierSamePlayer (pid : Int) (d : Nat) (e2 : Event) : Bool :=
  e2.player_id == pid &&
    match e2.status_date with
    | some d2 => decide (d2 < d)
    | none => false

/-- Rank of one event: `rank(method='min', na_option='keep')` within its
`player_id` group.  A present date gets `1 + (count of same-entity events
with a strictly earlier present date)`; a missing date gets a missing
rank. -/
def rankStep (df : List Event) (e : Event) : Option Int :=
  match e.status_date with
  | none => none
  | some d => some (1 + (df.countP (earlierSamePlayer e.player_id d) : Int))

/-- The `step` column assignment of `parse_status`. -/
def rankSteps (df : List Event) : List Event :=
  df.map (fun e => { e with step := rankStep df e })

/-! ## DuplicateStepReconciler: `StatusSource.resolve_duplicate_steps` -/

/-- Positions of the rows of `df` satisfying `p` (a boolean mask turned
into an index list). -/
def idxsWhere (p : Event → Bool) (df : List Event) : List Nat :=
  (List.range df.length).filter (fun i => p (df.getD i default))

/-- `df[df['step'] == step].index`: positions holding the given step. -/
def stepIndices (df : List Event) (s : Int) : List Nat :=
  idxsWhere (fun e => e.step == some s) df

/-- `StatusSource._get_step_index`: the position of the step if exactly one
row holds it, otherwise the empty list (absent or still-duplicated steps
give no context). -/
def get_step_index (df : List Event) (s : Int) : List Nat :=
  let idx := stepIndices df s
  if idx.length == 1 then idx else []

/-- One satisfied continuity link: the later row's `old_prob`/`old_status`
equal the earlier row's `new_prob`/`new_status` (missing values never
match, as in the pandas mask). -/
def validLink (prev next : Event) : Bool :=
  optEq next.old_prob prev.new_prob && optEq next.old_status prev.new_status

/-- Number of satisfied adjacent links in a chain of rows — the row count of
`df_check` in `_validate_steps` (the `shift(1)` comparison is false on the
first row). -/
def countLinks : List Event → Nat
  | [] => 0
  | [_] => 0
  | a :: b :: rest => (if validLink a b then 1 else 0) + countLinks (b :: rest)

/-- `StatusSource._validate_steps`: the chain is accepted iff
`len(df) == len(df_check) + 1`. -/
def validate_steps (rows : List Event) : Bool :=
  rows.length == countLinks rows + 1

/-- Write `some s` into the `step` of the row at position `i`
(`df.loc[i, "step"] = s`). -/
def setStep (df : List Event) (i : Nat) (s : Int) : List Event :=
  df.set i { df.getD i default with step := some s }

/-- `df.loc[permutation_idx, "step"] = np.arange(k) + step`: the `j`-th
listed position receives step `s + j`. -/
def assignResolved : List Event → List Nat → Int → List Event
  | df, [], _ => df
  | df, i :: rest, s => assignResolved (setStep df i s) rest (s + 1)

/-- The rows of the extended validation chain for permutation `p` of the
tied positions: the unique step `s-1` row (if any), then `p`'s rows, then
the unique step `s+1` row (if any) — `df.loc[idx_validation]`. -/
def chainRows (df : List Event) (s : Int) (p : List Nat) : List Event :=
  (get_step_index df (s - 1) ++ p ++ get_step_index df (s + 1)).map
    (fun i => df.getD i default)

/-- One iteration of the permutation loop: recompute the neighbour context
on the current frame, and if the extended chain validates, overwrite the
tied rows' steps with `s, s+1, …`. -/
def tryPermutation (df : List Event) (s : Int) (p : List Nat) : List Event :=
  if validate_steps (chainRows df s p) then assignResolved df p s else df

/-- All ways of picking one element out of a list (element, rest), in
positional order. -/
def picks {α : Type} : List α → List (α × List α)
  | [] => []
  | x :: xs => (x, xs) :: (picks xs).map (fun q => (q.1, x :: q.2))

/-- Permutation enumeration with an explicit recursion budget (each pick
removes one element, so a budget equal to the list length is exact). -/
def permsAux {α : Type} : Nat → List α → List (List α)
  | _, [] => [[]]
  | 0, _ :: _ => []
  | Nat.succ n, x :: xs =>
    (picks (x :: xs)).flatMap
      (fun q => (permsAux n q.2).map (fun p => q.1 :: p))

/-- `itertools.permutations`, in the same order: permutations beginning
with an earlier-positioned element come first. -/
def perms {α : Type} (l : List α) : List (List α) :=
  permsAux l.length l

/-- `df['step'].value_counts()` key order before sorting: distinct present
values in first-occurrence order (`NaN` dropped). -/
def uniqueSteps : List (Option Int) → List Int
  | [] => []
  | none :: rest => uniqueSteps rest
  | some s :: rest => s :: (uniqueSteps rest).filter (fun t => t ≠ s)

/-- Number of rows currently holding step `s`. -/
def countStep (df : List Event) (s : Int) : Nat :=
  df.countP (fun e => e.step == some s)

/-- Stable insert keeping counts in descending order. -/
def insertByCount (p : Int × Nat) : List (Int × Nat) → List (Int × Nat)
  | [] => [p]
  | q :: rest => if q.2 < p.2 then p :: q :: rest else q :: insertByCount p rest

/-- `value_counts`' sort: by count, descending; stable on equal counts. -/
def sortByCountDesc : List (Int × Nat) → List (Int × Nat)
  | [] => []
  | p :: rest => insertByCount p (sortByCountDesc rest)

/-- `step_counts[step_counts > 1].items()`: the duplicated step values with
their multiplicities, in `value_counts` order (count-descending). -/
def dupGroups (df : List Event) : List (Int × Nat) :=
  sortByCountDesc
    (((uniqueSteps (df.map (fun e => e.step))).map
        (fun s => (s, countStep df s))).filter (fun q => 1 < q.2))

/-- The step values of the tied groups in the order the `for` loop visits
them. -/
def dupStepsOrder (df : List Event) : List Int :=
  (dupGroups df).map (fun q => q.1)

/-- Process one tied group: fix the tied positions once, then run the full
permutation loop (there is no `break`: every validating permutation
re-assigns the steps, on the frame left by the previous iterations). -/
def resolveGroup (df : List Event) (s : Int) : List Event :=
  let dups := stepIndices df s
  (perms dups).foldl (fun acc p => tryPermutation acc s p) df

/-- The whole `for step, count in step_counts[step_counts > 1].items()`
loop. -/
def resolveLoop (df : List Event) : List Event :=
  (dupStepsOrder df).foldl resolveGroup df

/-- `len(df.groupby(['player_id', 'step']).filter(lambda x: len(x) > 1))`:
rows whose `(player_id, step)` key — with a present step; a `NaN` key is
dropped by `groupby` — is shared by more than one row. -/
def remaining_duplicates (df : List Event) : Nat :=
  df.countP (fun e =>
    match e.step with
    | none => false
    | some s => 1 < df.countP (fun e2 =>
        e2.player_id == e.player_id && e2.step == some s))

/-- `StatusSource.resolve_duplicate_steps` on one entity's frame: run the
group loop, then the final `assert`; a leftover duplicate raises
`AssertionError` with a fixed message, otherwise the frame is returned. -/
def resolve_duplicate_steps (df : List Event) : Except String (List Event) :=
  let out := resolveLoop df
  if remaining_duplicates out == 0 then Except.ok out
  else Except.error "something went wrong, not all duplicates resolved"

/-- The validator's post-condition, stated as the spec states it: no two
distinct rows of one entity share a present step value. -/
def NoDupPresentSteps (df : List Event) : Prop :=
  ∀ i j, i < df.length → j < df.length → i ≠ j →
    (df.getD i default).player_id = (df.getD j default).player_id →
    ∀ s : Int, (df.getD i default).step = some s →
      (df.getD j default).step ≠ some s

/-! ## Derived definitions used by the verification -/

/-- The predicate counted by `remaining_duplicates`, named for reuse. -/
def dupRowMark (df : List Event) (e : Event) : Bool :=
  match e.step with
  | none => false
  | some s => 1 < df.countP (fun e2 =>
      e2.player_id == e.player_id && e2.step == some s)

/-- `df'` is `df` with (at most) the `step` column rewritten: same length,
every row identical except possibly its `step`. -/
def StepOnly (df df' : List Event) : Prop :=
  df'.length = df.length ∧
  ∀ i, i < df.length →
    ∃ st, df'.getD i default = { df.getD i default with step := st }

/-- Every row of `df0` whose step is missing is still untouched in `df`. -/
def NoneFixed (df0 df : List Event) : Prop :=
  ∀ i, i < df0.length → (df0.getD i default).step = none →
    df.getD i default = df0.getD i default

/-- The present (non-missing) step values of a frame, in row order. -/
def presentSteps (df : List Event) : List Int :=
  df.filterMap (fun e => e.step)

/-- Whether an event has a present date strictly before `d`. -/
def dateBefore (d : Nat) (e : Event) : Bool :=
  match e.status_date with
  | some d2 => decide (d2 < d)
  | none => false

/-- The `rank(method='min')` value of date `d` within a single-entity frame:
one plus the number of events with a strictly earlier present date. -/
def rnk (evs : List Event) (d : Nat) : Int :=
  1 + (evs.countP (dateBefore d) : Int)

/-- The number of events sharing the resolved date `d` (the size of `d`'s
tied class). -/
def cls (evs : List Event) (d : Nat) : Nat :=
  evs.countP (fun e => e.status_date == some d)

/-- Invariant carried through the reconciliation loop over a single-entity
frame `evs`: rows with a missing date keep a missing step, and a row whose
date is `d` always carries a step inside the half-open rank interval
`[rnk d, rnk d + cls d)` of its date class. -/
def RankInv (evs df : List Event) : Prop :=
  df.length = evs.length ∧
  ∀ i, i < evs.length →
    ((evs.getD i default).status_date = none →
      (df.getD i default).step = none) ∧
    ∀ d, (evs.getD i default).status_date = some d →
      ∃ s, (df.getD i default).step = some s ∧
        rnk evs d ≤ s ∧ s < rnk evs d + (cls evs d : Int)

/-- A step value that the group loop can possibly visit: the minimum rank
of an inhabited date class of the single-entity frame `evs`. -/
def GoodStep (evs : List Event) (s : Int) : Prop :=
  ∃ d, s = rnk evs d ∧ ∃ e ∈ evs, e.status_date = some d

/-! ## Concrete frames used in counterexamples and witnesses -/

/-- Shorthand for one concrete status event. -/
def evRow (pid : Int) (d : Option Nat) (op np : Option Int)
    (os ns : Option String) (st : Option Int) : Event :=
  ⟨pid, d, op, np, os, ns, st, ""⟩

/-- A single-entity frame with a three-way tie on one date whose unique
valid permutation is anchored by both neighbours (the spec's §8
scenario). -/
def exTimeline : List Event :=
  [ evRow 1 (some 10) none (some 100) none (some "a") none,
    evRow 1 (some 20) (some 100) (some 0) (some "a") (some "i") none,
    evRow 1 (some 20) (some 0) (some 75) (some "i") (some "a") none,
    evRow 1 (some 20) (some 75) (some 0) (some "a") (some "s") none,
    evRow 1 (some 30) (some 0) (some 25) (some "s") (some "i") none ]

/-- Entity 7: two events tied on one date whose transition codes chain in
no order — reconciliation cannot succeed. -/
def exConflictA : List Event :=
  rankSteps
    [ evRow 7 (some 20) (some 100) (some 0) (some "a") (some "i") none,
      evRow 7 (some 20) (some 50) (some 75) (some "s") (some "u") none ]

/-- Entity 9: a different unresolvable tie (different step value and
different tied-group contents than `exConflictA`). -/
def exConflictB : List Event :=
  [ evRow 9 (some 4) (some 25) (some 50) (some "l") (some "a") (some 4),
    evRow 9 (some 4) (some 0) (some 100) (some "i") (some "u") (some 4) ]

/-- A single entity with two tied groups: three events on the later date
(step 3) and two on the earlier date (step 1). -/
def exSizes : List Event :=
  [ evRow 1 (some 5) none none none none none,
    evRow 1 (some 5) none none none none none,
    evRow 1 (some 5) none none none none none,
    evRow 1 (some 1) none none none none none,
    evRow 1 (some 1) none none none none none ]

/-- A single-entity frame that already carries pairwise-distinct steps. -/
def exResolved : List Event :=
  [ evRow 3 (some 1) (some 100) (some 0) (some "a") (some "i") (some 1),
    evRow 3 (some 2) (some 0) (some 100) (some "i") (some "a") (some 2) ]

/-- A frame whose second row has a malformed (missing) date. -/
def exWithMissing : List Event :=
  [ evRow 2 (some 1) (some 100) (some 0) (some "a") (some "i") none,
    evRow 2 none (some 0) (some 50) (some "i") (some "d") none,
    evRow 2 (some 3) (some 0) (some 100) (some "i") (some "a") none ]

/-! ## Infrastructure: positions, masks and counts -/

theorem getD_eq_getElem {l : List Event} {i : Nat} (h : i < l.length) :
    l.getD i default = l[i] := by
  simp [List.getD_eq_getElem?_getD, List.getElem?_eq_getElem h]

theorem getD_mem {l : List Event} {i : Nat} (h : i < l.length) :
    l.getD i default ∈ l := by
  rw [getD_eq_getElem h]; exact List.getElem_mem h

theorem mem_idxsWhere {p : Event → Bool} {df : List Event} {i : Nat} :
    i ∈ idxsWhere p df ↔ i < df.length ∧ p (df.getD i default) = true := by
  simp [idxsWhere, List.mem_filter, List.mem_range]

theorem nodup_idxsWhere {p : Event → Bool} {df : List Event} :
    (idxsWhere p df).Nodup :=
  List.Nodup.filter _ (List.nodup_range _)

theorem length_idxsWhere (p : Event → Bool) :
    ∀ df : List Event, (idxsWhere p df).length = df.countP p
  | [] => by simp [idxsWhere]
  | x :: xs => by
    have hcomp : (fun i => p ((x :: xs).getD i default)) ∘ Nat.succ
        = fun i => p (xs.getD i default) := rfl
    have h := length_idxsWhere p xs
    simp only [idxsWhere, List.length_cons, List.range_succ_eq_map,
      List.filter_cons, List.filter_map, hcomp, List.countP_cons] at *
    cases hx : p ((x :: xs).getD 0 default) <;>
      simp_all [List.getD_cons_zero, List.countP_cons]

theorem nodup_two_mem_length {l : List Nat} (hn : l.Nodup) {a b : Nat}
    (ha : a ∈ l) (hb : b ∈ l) (hab : a ≠ b) : 2 ≤ l.length := by
  match l, ha with
  | [x], ha =>
    rw [List.mem_singleton] at ha hb
    exact absurd (ha.trans hb.symm) hab
  | x :: y :: rest, _ => simp [List.length_cons]

theorem exists_two_of_nodup_length {l : List Nat} (hn : l.Nodup)
    (h : 2 ≤ l.length) : ∃ a b, a ∈ l ∧ b ∈ l ∧ a ≠ b := by
  match l, h with
  | x :: y :: rest, _ =>
    refine ⟨x, y, by simp, by simp, ?_⟩
    intro hxy
    exact (List.nodup_cons.mp hn).1 (by rw [hxy]; exact List.mem_cons_self y rest)

theorem two_le_countP {p : Event → Bool} {df : List Event} {i j : Nat}
    (hi : i < df.length) (hj : j < df.length) (hij : i ≠ j)
    (hpi : p (df.getD i default) = true) (hpj : p (df.getD j default) = true) :
    2 ≤ df.countP p := by
  rw [← length_idxsWhere]
  exact nodup_two_mem_length nodup_idxsWhere
    (mem_idxsWhere.mpr ⟨hi, hpi⟩) (mem_idxsWhere.mpr ⟨hj, hpj⟩) hij

theorem countP_two_exists {p : Event → Bool} {df : List Event}
    (h : 2 ≤ df.countP p) :
    ∃ i j, i < df.length ∧ j < df.length ∧ i ≠ j ∧
      p (df.getD i default) = true ∧ p (df.getD j default) = true := by
  rw [← length_idxsWhere] at h
  obtain ⟨a, b, ha, hb, hab⟩ := exists_two_of_nodup_length nodup_idxsWhere h
  rw [mem_idxsWhere] at ha hb
  exact ⟨a, b, ha.1, hb.1, hab, ha.2, hb.2⟩

theorem remaining_duplicates_eq_countP (df : List Event) :
    remaining_duplicates df = df.countP (dupRowMark df) := rfl

theorem remaining_duplicates_eq_zero_iff (df : List Event) :
    remaining_duplicates df = 0 ↔ NoDupPresentSteps df := by
  rw [remaining_duplicates_eq_countP]
  constructor
  · intro h i j hi hj hij hpid s hsi hsj
    have hmem : df.getD i default ∈ df := getD_mem hi
    apply List.countP_eq_zero.mp h _ hmem
    show dupRowMark df (df.getD i default) = true
    unfold dupRowMark
    rw [hsi]
    simp only [decide_eq_true_eq]
    refine two_le_countP hi hj hij ?_ ?_ <;>
      simp only [Bool.and_eq_true, beq_iff_eq]
    · exact ⟨trivial, hsi⟩
    · exact ⟨hpid.symm, hsj⟩
  · intro hnd
    rw [List.countP_eq_zero]
    intro e hmem
    unfold dupRowMark
    cases hstep : e.step with
    | none => simp
    | some s =>
      simp only [decide_eq_true_eq, Bool.not_eq_true, decide_eq_false_iff_not, not_lt]
      by_contra hgt
      push_neg at hgt
      obtain ⟨i, j, hi, hj, hij, hpi, hpj⟩ := countP_two_exists hgt
      simp only [Bool.and_eq_true, beq_iff_eq] at hpi hpj
      exact hnd i j hi hj hij (hpi.1.trans hpj.1.symm) s hpi.2 hpj.2

/-! ## Infrastructure: permutations -/

theorem picks_length {α : Type} : ∀ {l : List α} {q : α × List α},
    q ∈ picks l → q.2.length + 1 = l.length
  | [], _, h => absurd h (List.not_mem_nil _)
  | x :: xs, q, h => by
    rcases List.mem_cons.mp h with h | h
    · subst h; rfl
    · rcases List.mem_map.mp h with ⟨q', hq', rfl⟩
      simpa using picks_length hq'

theorem perm_of_mem_picks {α : Type} :
    ∀ {l : List α} {q : α × List α}, q ∈ picks l → (q.1 :: q.2).Perm l
  | [], _, h => absurd h (List.not_mem_nil _)
  | x :: xs, q, h => by
    rcases List.mem_cons.mp h with h | h
    · subst h; exact List.Perm.refl _
    · rcases List.mem_map.mp h with ⟨q', hq', rfl⟩
      have ih := perm_of_mem_picks hq'
      exact (List.Perm.swap x q'.1 q'.2).trans (ih.cons x)

theorem perm_of_mem_permsAux {α : Type} :
    ∀ (n : Nat) {l p : List α}, l.length ≤ n → p ∈ permsAux n l → p.Perm l
  | _, [], p, _, h => by
    simp only [permsAux, List.mem_singleton] at h
    subst h; exact List.Perm.refl _
  | 0, x :: xs, _, hn, _ => by simp at hn
  | Nat.succ n, x :: xs, p, hn, h => by
    rw [permsAux, List.mem_flatMap] at h
    obtain ⟨q, hq, hp⟩ := h
    rw [List.mem_map] at hp
    obtain ⟨p', hp', rfl⟩ := hp
    have hlen : q.2.length + 1 = (x :: xs).length := picks_length hq
    have hle : q.2.length ≤ n := by
      simp only [List.length_cons] at hlen hn
      omega
    have ih : p'.Perm q.2 := perm_of_mem_permsAux n hle hp'
    exact (ih.cons q.1).trans (perm_of_mem_picks hq)

theorem perm_of_mem_perms {α : Type} {l p : List α} (h : p ∈ perms l) :
    p.Perm l :=
  perm_of_mem_permsAux l.length le_rfl h

/-! ## Infrastructure: step assignment -/

theorem getD_set_ne {df : List Event} {i j : Nat} (h : i ≠ j) (a : Event) :
    (df.set i a).getD j default = df.getD j default := by
  simp [List.getD_eq_getElem?_getD, List.getElem?_set_ne h]

theorem getD_set_self {df : List Event} {i : Nat} (h : i < df.length) (a : Event) :
    (df.set i a).getD i default = a := by
  simp [List.getD_eq_getElem?_getD, List.getElem?_set_self h]

theorem length_setStep (df : List Event) (i : Nat) (s : Int) :
    (setStep df i s).length = df.length := List.length_set df i _

theorem length_assignResolved :
    ∀ (p : List Nat) (df : List Event) (s : Int),
      (assignResolved df p s).length = df.length
  | [], _, _ => rfl
  | i :: rest, df, s => by
    rw [assignResolved, length_assignResolved rest, length_setStep]

theorem assignResolved_getD_not_mem :
    ∀ {p : List Nat} {df : List Event} {s : Int} {j : Nat}, j ∉ p →
      (assignResolved df p s).getD j default = df.getD j default
  | [], _, _, _, _ => rfl
  | i :: rest, df, s, j, h => by
    rw [List.mem_cons, not_or] at h
    rw [assignResolved, assignResolved_getD_not_mem h.2]
    exact getD_set_ne (fun hij => h.1 (hij.symm)) _

theorem assignResolved_getD_mem :
    ∀ {p : List Nat}, p.Nodup → ∀ {df : List Event} {s : Int} {i : Nat},
      i ∈ p → i < df.length →
      ∃ m, m < p.length ∧ (assignResolved df p s).getD i default =
        { df.getD i default with step := some (s + (m : Int)) }
  | [], _, _, _, _, h, _ => absurd h (List.not_mem_nil _)
  | i0 :: rest, hnd, df, s, i, h, hlen => by
    rcases List.mem_cons.mp h with rfl | hmem
    · have hnotin : i ∉ rest := (List.nodup_cons.mp hnd).1
      refine ⟨0, by simp, ?_⟩
      rw [assignResolved, assignResolved_getD_not_mem hnotin, setStep,
        getD_set_self hlen]
      simp
    · have hne : i ≠ i0 := by
        rintro rfl; exact (List.nodup_cons.mp hnd).1 hmem
      have hlen' : i < (setStep df i0 s).length := by
        rw [length_setStep]; exact hlen
      obtain ⟨m, hm, heq⟩ := assignResolved_getD_mem (List.nodup_cons.mp hnd).2
        hmem hlen' (s := s + 1)
      refine ⟨m + 1, by simpa using Nat.succ_lt_succ hm, ?_⟩
      rw [assignResolved, heq, setStep, getD_set_ne (fun hij => hne hij.symm)]
      push_cast
      ring_nf

/-- Fold a state invariant along a list of loop iterations. -/
theorem foldl_inv {σ β : Type} {P : σ → Prop} {f : σ → β → σ} :
    ∀ {gs : List β}, (∀ st s, s ∈ gs → P st → P (f st s)) →
      ∀ {st : σ}, P st → P (gs.foldl f st)
  | [], _, _, hst => hst
  | g :: gs, h, st, hst => by
    rw [List.foldl_cons]
    exact foldl_inv (fun st' s hs => h st' s (List.mem_cons_of_mem g hs))
      (h st g (List.mem_cons_self g gs) hst)

/-! ## Infrastructure: the reconciler only rewrites `step` -/

theorem stepOnly_refl (df : List Event) : StepOnly df df :=
  ⟨rfl, fun i _ => ⟨(df.getD i default).step, rfl⟩⟩

theorem stepOnly_trans {a b c : List Event}
    (h1 : StepOnly a b) (h2 : StepOnly b c) : StepOnly a c := by
  refine ⟨h2.1.trans h1.1, fun i hi => ?_⟩
  obtain ⟨st1, he1⟩ := h1.2 i hi
  obtain ⟨st2, he2⟩ := h2.2 i (h1.1 ▸ hi)
  exact ⟨st2, by rw [he2, he1]⟩

theorem stepOnly_setStep (df : List Event) (i : Nat) (s : Int) :
    StepOnly df (setStep df i s) := by
  refine ⟨List.length_set df _ _, fun j hj => ?_⟩
  by_cases hij : i = j
  · subst hij
    exact ⟨some s, getD_set_self hj _⟩
  · exact ⟨(df.getD j default).step, by rw [setStep, getD_set_ne hij]⟩

theorem stepOnly_assignResolved :
    ∀ (p : List Nat) (df : List Event) (s : Int),
      StepOnly df (assignResolved df p s)
  | [], df, _ => stepOnly_refl df
  | i :: rest, df, s => by
    rw [assignResolved]
    exact stepOnly_trans (stepOnly_setStep df i s)
      (stepOnly_assignResolved rest _ _)

theorem stepOnly_tryPermutation (df : List Event) (s : Int) (p : List Nat) :
    StepOnly df (tryPermutation df s p) := by
  unfold tryPermutation
  split
  · exact stepOnly_assignResolved p df s
  · exact stepOnly_refl df

theorem stepOnly_resolveGroup (df : List Event) (s : Int) :
    StepOnly df (resolveGroup df s) := by
  unfold resolveGroup
  exact foldl_inv
    (fun acc p _ h => stepOnly_trans h (stepOnly_tryPermutation acc s p))
    (stepOnly_refl df)

theorem stepOnly_resolveLoop (df : List Event) : StepOnly df (resolveLoop df) := by
  unfold resolveLoop
  exact foldl_inv
    (fun acc s _ h => stepOnly_trans h (stepOnly_resolveGroup acc s))
    (stepOnly_refl df)

/-! ## Infrastructure: rows with a missing step are never touched -/

theorem noneFixed_refl (df : List Event) : NoneFixed df df := fun _ _ _ => rfl

theorem noneFixed_resolveGroup {df0 df : List Event} (s : Int)
    (h : NoneFixed df0 df) : NoneFixed df0 (resolveGroup df s) := by
  unfold resolveGroup
  refine foldl_inv ?_ h
  intro acc p hp hacc i hi hnone
  unfold tryPermutation
  split
  · rw [assignResolved_getD_not_mem ?_]
    · exact hacc i hi hnone
    · intro hmem
      have hidups : i ∈ stepIndices df s := (perm_of_mem_perms hp).mem_iff.mp hmem
      have hstep := (mem_idxsWhere.mp hidups).2
      rw [h i hi hnone, hnone] at hstep
      simp at hstep
  · exact hacc i hi hnone

theorem noneFixed_resolveLoop (df : List Event) : NoneFixed df (resolveLoop df) := by
  unfold resolveLoop
  exact foldl_inv (fun acc s _ h => noneFixed_resolveGroup s h) (noneFixed_refl df)

/-! ## Infrastructure: the final assert -/

theorem resolve_cases (df : List Event) :
    (remaining_duplicates (resolveLoop df) = 0 ∧
      resolve_duplicate_steps df = Except.ok (resolveLoop df)) ∨
    (remaining_duplicates (resolveLoop df) ≠ 0 ∧
      resolve_duplicate_steps df =
        Except.error "something went wrong, not all duplicates resolved") := by
  by_cases h : remaining_duplicates (resolveLoop df) = 0
  · exact Or.inl ⟨h, by simp [resolve_duplicate_steps, h]⟩
  · exact Or.inr ⟨h, by simp [resolve_duplicate_steps, h]⟩

theorem resolve_ok_out {df out : List Event}
    (h : resolve_duplicate_steps df = Except.ok out) :
    out = resolveLoop df ∧ remaining_duplicates (resolveLoop df) = 0 := by
  rcases resolve_cases df with ⟨h0, heq⟩ | ⟨_, heq⟩
  · rw [heq] at h
    exact ⟨(Except.ok.inj h).symm, h0⟩
  · rw [heq] at h
    cases h

theorem rankSteps_getD {df : List Event} {i : Nat} (hi : i < df.length) :
    (rankSteps df).getD i default =
      { df.getD i default with step := rankStep df (df.getD i default) } := by
  unfold rankSteps
  rw [getD_eq_getElem (by simpa using hi), List.getElem_map, getD_eq_getElem hi]

theorem mem_stepIndices {df : List Event} {s : Int} {i : Nat}
    (h : i ∈ stepIndices df s) :
    i < df.length ∧ (df.getD i default).step = some s := by
  have := mem_idxsWhere.mp h
  exact ⟨this.1, by simpa using this.2⟩

theorem mem_get_step_index {df : List Event} {s : Int} {i : Nat}
    (h : i ∈ get_step_index df s) :
    i < df.length ∧ (df.getD i default).step = some s := by
  simp only [get_step_index] at h
  split at h
  · exact mem_stepIndices h
  · cases h

/-! ## Infrastructure: the group-processing order -/

theorem mem_insertByCount {p x : Int × Nat} :
    ∀ {l : List (Int × Nat)}, x ∈ insertByCount p l ↔ x = p ∨ x ∈ l
  | [] => by simp [insertByCount]
  | q :: rest => by
    rw [insertByCount]
    split
    · simp [List.mem_cons]
    · rw [List.mem_cons, mem_insertByCount (l := rest), List.mem_cons]
      tauto

theorem pairwise_insertByCount {p : Int × Nat} :
    ∀ {l : List (Int × Nat)},
      List.Pairwise (fun a b => b.2 ≤ a.2) l →
      List.Pairwise (fun a b => b.2 ≤ a.2) (insertByCount p l)
  | [], _ => by simp [insertByCount]
  | q :: rest, h => by
    rw [insertByCount]
    rw [List.pairwise_cons] at h
    split
    · next hlt =>
      rw [List.pairwise_cons]
      refine ⟨?_, List.pairwise_cons.mpr h⟩
      intro x hx
      rcases List.mem_cons.mp hx with rfl | hx'
      · exact Nat.le_of_lt hlt
      · exact Nat.le_trans (h.1 x hx') (Nat.le_of_lt hlt)
    · next hge =>
      rw [List.pairwise_cons]
      refine ⟨?_, pairwise_insertByCount h.2⟩
      intro x hx
      rcases mem_insertByCount.mp hx with rfl | hx'
      · omega
      · exact h.1 x hx'

theorem pairwise_sortByCountDesc :
    ∀ l : List (Int × Nat),
      List.Pairwise (fun a b => b.2 ≤ a.2) (sortByCountDesc l)
  | [] => List.Pairwise.nil
  | _ :: rest => pairwise_insertByCount (pairwise_sortByCountDesc rest)

theorem mem_sortByCountDesc {x : Int × Nat} :
    ∀ {l : List (Int × Nat)}, x ∈ sortByCountDesc l → x ∈ l
  | [], h => absurd h (List.not_mem_nil _)
  | p :: rest, h => by
    rw [sortByCountDesc] at h
    rcases mem_insertByCount.mp h with rfl | h'
    · exact List.mem_cons_self _ _
    · exact List.mem_cons_of_mem _ (mem_sortByCountDesc h')

theorem mem_uniqueSteps {s : Int} :
    ∀ {l : List (Option Int)}, s ∈ uniqueSteps l → some s ∈ l
  | [], h => absurd h (List.not_mem_nil _)
  | none :: rest, h => List.mem_cons_of_mem _ (mem_uniqueSteps h)
  | some t :: rest, h => by
    rw [uniqueSteps, List.mem_cons] at h
    rcases h with rfl | h'
    · exact List.mem_cons_self _ _
    · exact List.mem_cons_of_mem _
        (mem_uniqueSteps (List.mem_of_mem_filter h'))

theorem mem_dupGroups {df : List Event} {q : Int × Nat}
    (h : q ∈ dupGroups df) :
    q.2 = countStep df q.1 ∧ 1 < q.2 ∧ some q.1 ∈ df.map (fun e => e.step) := by
  have h1 := mem_sortByCountDesc h
  have h2 := List.mem_filter.mp h1
  obtain ⟨s, hs, rfl⟩ := List.mem_map.mp h2.1
  exact ⟨rfl, by simpa using h2.2, mem_uniqueSteps hs⟩

/-- A neighbour step that is itself still tied (or absent) contributes no
context. -/
theorem get_step_index_eq_nil {df : List Event} {s : Int}
    (h : (stepIndices df s).length ≠ 1) : get_step_index df s = [] := by
  simp only [get_step_index]
  split
  · next hb => exact absurd (by simpa using hb) h
  · rfl

/-! ## Claim theorems -/

/-- Claim C1: for every entity frame, reconciliation returns (rather than
raising) iff the final duplicate check passes, i.e. iff no
`(entity, step)` pair with a present step repeats after the group loop;
and any returned frame satisfies that uniqueness property. -/
theorem c1_final_check_iff_unique (df : List Event) :
    ((∃ out, resolve_duplicate_steps df = Except.ok out) ↔
      NoDupPresentSteps (resolveLoop df)) ∧
    ∀ out, resolve_duplicate_steps df = Except.ok out →
      out = resolveLoop df ∧ NoDupPresentSteps out := by
  rcases resolve_cases df with ⟨h0, heq⟩ | ⟨h0, heq⟩
  · have hnd := (remaining_duplicates_eq_zero_iff _).mp h0
    refine ⟨⟨fun _ => hnd, fun _ => ⟨_, heq⟩⟩, ?_⟩
    intro out hout
    obtain ⟨hrfl, _⟩ := resolve_ok_out hout
    exact ⟨hrfl, by rw [hrfl]; exact hnd⟩
  · refine ⟨⟨?_, ?_⟩, ?_⟩
    · rintro ⟨out, hout⟩
      rw [heq] at hout
      cases hout
    · intro hnd
      exact absurd ((remaining_duplicates_eq_zero_iff _).mpr hnd) h0
    · intro out hout
      rw [heq] at hout
      cases hout

/-- Witness for C1 at the concrete scenario frame. -/
theorem c1_witness :
    NoDupPresentSteps (resolveLoop (rankSteps exTimeline)) :=
  ((c1_final_check_iff_unique (rankSteps exTimeline)).2 _ rfl).2

/-- Claim C2: a candidate ordering (tied permutation between the at most
one predecessor and at most one successor context row) is accepted exactly
when the number of adjacent pairs satisfying the continuity condition
equals the extended chain's length minus one. -/
theorem c2_validation_rule :
    (∀ (df : List Event) (s : Int) (p : List Nat),
      tryPermutation df s p =
        if validate_steps (chainRows df s p) then assignResolved df p s
        else df) ∧
    (∀ rows : List Event,
      validate_steps rows = true ↔
        (countLinks rows : Int) = (rows.length : Int) - 1) ∧
    (∀ (df : List Event) (s : Int), (get_step_index df s).length ≤ 1) := by
  refine ⟨fun _ _ _ => rfl, fun rows => ?_, fun df s => ?_⟩
  · unfold validate_steps
    rw [beq_iff_eq]
    omega
  · simp only [get_step_index]
    split
    · next hb => exact Nat.le_of_eq (by simpa using hb)
    · simp

/-- Witness for C2: the accepted chain of the scenario frame. -/
theorem c2_witness :
    validate_steps (chainRows (rankSteps exTimeline) 2 [1, 2, 3]) = true :=
  (c2_validation_rule.2.1 _).mpr (by decide)

/-- Counterexample for C3: two unresolvable frames differing in entity
identifier (7 vs 9), tied step value (1 vs 4) and tied-group contents
raise the *identical* constant assertion message, so the surfaced failure
carries none of them. -/
theorem c3_counterexample :
    resolve_duplicate_steps exConflictA =
      Except.error "something went wrong, not all duplicates resolved" ∧
    resolve_duplicate_steps exConflictB =
      Except.error "something went wrong, not all duplicates resolved" ∧
    exConflictA ≠ exConflictB ∧
    (∀ e ∈ exConflictA, e.player_id = 7 ∧ e.step = some 1) ∧
    (∀ e ∈ exConflictB, e.player_id = 9 ∧ e.step = some 4) := by
  exact ⟨rfl, rfl, by decide, by decide, by decide⟩

/-- Claim C3 as amended: when no permutation of a tied group validates,
reconciliation for the entity fails (the final assert raises) and no
guessed order is ever returned — but the failure is a fixed, generic
assertion message that carries neither the entity identifier, nor the
step, nor the tied-group contents; every run either returns a frame with
unique present steps or raises that constant message. -/
theorem c3_amended_generic_failure (df : List Event) :
    (∃ out, resolve_duplicate_steps df = Except.ok out ∧
      NoDupPresentSteps out) ∨
    resolve_duplicate_steps df =
      Except.error "something went wrong, not all duplicates resolved" := by
  rcases resolve_cases df with ⟨h0, heq⟩ | ⟨_, heq⟩
  · exact Or.inl ⟨_, heq, (remaining_duplicates_eq_zero_iff _).mp h0⟩
  · exact Or.inr heq

/-- Counterexample for C4: a frame with a two-event tie at step 1 and a
three-event tie at step 3 is processed in the order `[3, 1]` — the larger
group first, not increasing step order. -/
theorem c4_counterexample :
    dupStepsOrder (rankSteps exSizes) = [3, 1] ∧
    ¬ List.Pairwise (fun a b : Int => a ≤ b)
      (dupStepsOrder (rankSteps exSizes)) := by
  have heq : dupStepsOrder (rankSteps exSizes) = [3, 1] := by decide
  refine ⟨heq, fun h => ?_⟩
  rw [heq] at h
  have h31 : (3 : Int) ≤ 1 :=
    (List.pairwise_cons.mp h).1 1 (List.mem_singleton_self 1)
  omega

/-- Claim C4 as amended: tied groups are processed in `value_counts`
order — decreasing group size (the relative order of equal-sized groups
is an implementation detail of the sort), not increasing step value; a
neighbour step that is still tied at processing time simply yields no
validation context. -/
theorem c4_amended_count_order :
    (∀ df : List Event,
      List.Pairwise (fun a b : Int × Nat => b.2 ≤ a.2) (dupGroups df)) ∧
    (∀ (df : List Event) (s : Int), 1 < (stepIndices df s).length →
      get_step_index df s = []) := by
  refine ⟨fun df => pairwise_sortByCountDesc _, fun df s h => ?_⟩
  exact get_step_index_eq_nil (by omega)

/-- Witness for the amended C4 at the concrete two-group frame. -/
theorem c4_amended_witness :
    List.Pairwise (fun a b : Int × Nat => b.2 ≤ a.2)
      (dupGroups (rankSteps exSizes)) ∧
    get_step_index (rankSteps exSizes) 1 = [] :=
  ⟨c4_amended_count_order.1 _, c4_amended_count_order.2 _ 1 (by decide)⟩

/-- Claim C7: on every day-month string the parser accepts, the resolved
date keeps the parsed day and month and its year is `base_year` when the
month is after June, `base_year + 1` otherwise; in particular
`"15 Aug"`/2020 resolves into 2020 and `"10 Mar"`/2020 into 2021. -/
theorem c7_year_rollover :
    (∀ (s : String) (y : Int) (d m : Nat),
      strptimeDayMonth s = some (d, m) →
      fix_date s y = some ⟨if 6 < m then y else y + 1, m, d⟩) ∧
    fix_date "15 Aug" 2020 = some ⟨2020, 8, 15⟩ ∧
    fix_date "10 Mar" 2020 = some ⟨2021, 3, 10⟩ := by
  refine ⟨?_, rfl, rfl⟩
  intro s y d m h
  unfold fix_date
  rw [h]
  by_cases h6 : 6 < m
  · simp [h6]
  · simp [h6]

/-- Witness for C7 at the concrete August date. -/
theorem c7_witness : fix_date "15 Aug" 2020 = some ⟨2020, 8, 15⟩ :=
  c7_year_rollover.1 "15 Aug" 2020 15 8 rfl

/-- Claim C10: `"29 Feb"` resolves to absent for every base year — the
string is parsed against the non-leap default year 1900 (February has 28
days there) before any season year is attached, so even a leap
`base_year + 1` cannot make it valid. -/
theorem c10_feb29_absent :
    ∀ base_year : Int, fix_date "29 Feb" base_year = none :=
  fun _ => rfl

/-! ## Infrastructure: frames without ties -/

theorem countStep_eq_count (df : List Event) (s : Int) :
    countStep df s = (presentSteps df).count s := by
  unfold countStep presentSteps
  rw [List.count_filterMap]

theorem dupGroups_nil_of_nodup {df : List Event}
    (hnd : (presentSteps df).Nodup) : dupGroups df = [] := by
  unfold dupGroups
  have hfil :
      ((uniqueSteps (df.map (fun e => e.step))).map
        (fun s => (s, countStep df s))).filter (fun q => 1 < q.2) = [] := by
    rw [List.filter_eq_nil_iff]
    intro q hq
    obtain ⟨s, _, rfl⟩ := List.mem_map.mp hq
    have hle : countStep df s ≤ 1 := by
      rw [countStep_eq_count]
      exact List.nodup_iff_count_le_one.mp hnd s
    simpa using Nat.not_lt.mpr hle
  rw [hfil]
  rfl

theorem resolveLoop_eq_self {df : List Event} (h : dupGroups df = []) :
    resolveLoop df = df := by
  unfold resolveLoop dupStepsOrder
  rw [h]
  rfl

theorem remaining_duplicates_eq_zero_of_nodup {df : List Event}
    (hnd : (presentSteps df).Nodup) : remaining_duplicates df = 0 := by
  rw [remaining_duplicates_eq_countP, List.countP_eq_zero]
  intro e _
  unfold dupRowMark
  cases hstep : e.step with
  | none => simp
  | some s =>
    simp only [Bool.not_eq_true, decide_eq_false_iff_not, not_lt]
    calc df.countP (fun e2 => e2.player_id == e.player_id && e2.step == some s)
        ≤ df.countP (fun e2 => e2.step == some s) :=
          List.countP_mono_left (fun e2 _ h2 => (Bool.and_eq_true ..).mp h2 |>.2)
      _ ≤ 1 := by
          rw [show df.countP (fun e2 => e2.step == some s) = countStep df s from rfl,
            countStep_eq_count]
          exact List.nodup_iff_count_le_one.mp hnd s

theorem stepOnly_player_id {df df' : List Event} (h : StepOnly df df')
    {pid : Int} (hp : ∀ e ∈ df, e.player_id = pid) :
    ∀ e ∈ df', e.player_id = pid := by
  intro e he
  obtain ⟨i, hi, heq⟩ := List.mem_iff_getElem.mp he
  have hi' : i < df.length := by rw [← h.1]; exact hi
  have hgd : df'.getD i default = e := by rw [getD_eq_getElem hi]; exact heq
  obtain ⟨st, hrow⟩ := h.2 i hi'
  rw [hgd] at hrow
  rw [hrow]
  show (df.getD i default).player_id = pid
  exact hp _ (getD_mem hi')

theorem presentSteps_nodup_of_no_remaining {df : List Event} {pid : Int}
    (hp : ∀ e ∈ df, e.player_id = pid)
    (h : remaining_duplicates df = 0) : (presentSteps df).Nodup := by
  rw [List.nodup_iff_count_le_one]
  intro s
  rw [← countStep_eq_count]
  by_contra hgt
  push_neg at hgt
  obtain ⟨i, j, hi, hj, hij, hpi, hpj⟩ :=
    countP_two_exists (show 2 ≤ df.countP (fun e => e.step == some s) by
      unfold countStep at hgt; omega)
  rw [remaining_duplicates_eq_countP, List.countP_eq_zero] at h
  apply h (df.getD i default) (getD_mem hi)
  show dupRowMark df (df.getD i default) = true
  unfold dupRowMark
  rw [beq_iff_eq] at hpi hpj
  rw [hpi]
  simp only [decide_eq_true_eq]
  refine two_le_countP hi hj hij ?_ ?_ <;>
    simp only [Bool.and_eq_true, beq_iff_eq]
  · exact ⟨trivial, hpi⟩
  · refine ⟨?_, hpj⟩
    rw [hp _ (getD_mem hj), hp _ (getD_mem hi)]

/-- Claim C8: the reconciler is the identity on a frame whose present
steps are already pairwise distinct (no tied groups — the loop has nothing
to visit and the final check passes), so running it a second time on any
frame it returned changes nothing. -/
theorem c8_idempotent :
    (∀ df : List Event, (presentSteps df).Nodup →
      resolve_duplicate_steps df = Except.ok df) ∧
    (∀ (df out : List Event) (pid : Int), (∀ e ∈ df, e.player_id = pid) →
      resolve_duplicate_steps df = Except.ok out →
      resolve_duplicate_steps out = Except.ok out) := by
  have part1 : ∀ df : List Event, (presentSteps df).Nodup →
      resolve_duplicate_steps df = Except.ok df := by
    intro df hnd
    have hloop : resolveLoop df = df :=
      resolveLoop_eq_self (dupGroups_nil_of_nodup hnd)
    have hrem : remaining_duplicates df = 0 :=
      remaining_duplicates_eq_zero_of_nodup hnd
    simp [resolve_duplicate_steps, hloop, hrem]
  refine ⟨part1, ?_⟩
  intro df out pid hp hok
  obtain ⟨hout, hrem⟩ := resolve_ok_out hok
  have hso : StepOnly df out := by rw [hout]; exact stepOnly_resolveLoop df
  have hp' : ∀ e ∈ out, e.player_id = pid := stepOnly_player_id hso hp
  have hrem' : remaining_duplicates out = 0 := by rw [hout]; exact hrem
  exact part1 out (presentSteps_nodup_of_no_remaining hp' hrem')

/-- Witness for C8: a two-row frame with distinct steps is returned
verbatim. -/
theorem c8_witness : resolve_duplicate_steps exResolved = Except.ok exResolved :=
  c8_idempotent.1 exResolved (by decide)

/-- Claim C9: events with an unresolvable date are invisible to
reconciliation.  The ranking step gives a row a missing step exactly when
its date is missing; tied-group detection counts only rows with a present
step; a context row selected for validation always carries the looked-up
present step; the residual-duplicate check never marks a missing-step row;
and a successful reconciliation returns missing-step rows untouched, still
present at their positions. -/
theorem c9_missing_dates_invisible :
    (∀ (df : List Event) (i : Nat), i < df.length →
      (((rankSteps df).getD i default).step = none ↔
        (df.getD i default).status_date = none)) ∧
    (∀ (df : List Event) (s : Int),
      countStep df s = countStep (df.filter (fun e => e.step.isSome)) s) ∧
    (∀ (df : List Event) (s : Int) (i : Nat), i ∈ get_step_index df s →
      (df.getD i default).step = some s) ∧
    (∀ (df : List Event) (e : Event), dupRowMark df e = true →
      e.step ≠ none) ∧
    (∀ df out : List Event, resolve_duplicate_steps df = Except.ok out →
      out.length = df.length ∧
      ∀ i, i < df.length → (df.getD i default).step = none →
        out.getD i default = df.getD i default) := by
  refine ⟨?_, ?_, ?_, ?_, ?_⟩
  · intro df i hi
    rw [rankSteps_getD hi]
    show rankStep df (df.getD i default) = none ↔ _
    unfold rankStep
    cases hd : (df.getD i default).status_date <;> simp [hd]
  · intro df s
    unfold countStep
    rw [List.countP_filter]
    apply List.countP_congr
    intro e _
    cases h : e.step <;> simp [h]
  · intro df s i h
    exact (mem_get_step_index h).2
  · intro df e h hnone
    unfold dupRowMark at h
    rw [hnone] at h
    cases h
  · intro df out hok
    obtain ⟨hout, _⟩ := resolve_ok_out hok
    subst hout
    exact ⟨(stepOnly_resolveLoop df).1, fun i hi hnone =>
      noneFixed_resolveLoop df i hi hnone⟩

/-- Witness for C9: the missing-date row of the concrete frame gets a
missing step and survives reconciliation untouched. -/
theorem c9_witness :
    ((rankSteps exWithMissing).getD 1 default).step = none ∧
    (resolveLoop (rankSteps exWithMissing)).getD 1 default =
      (rankSteps exWithMissing).getD 1 default :=
  ⟨(c9_missing_dates_invisible.1 exWithMissing 1 (by decide)).mpr rfl,
    (c9_missing_dates_invisible.2.2.2.2 (rankSteps exWithMissing)
      (resolveLoop (rankSteps exWithMissing)) rfl).2 1 (by decide) (by decide)⟩

/-! ## Infrastructure: strict count monotonicity -/

theorem countP_lt_of_mem {p q : Event → Bool} :
    ∀ {l : List Event}, (∀ e ∈ l, p e = true → q e = true) →
      ∀ {x : Event}, x ∈ l → q x = true → p x = false →
      l.countP p < l.countP q
  | [], _, _, hx, _, _ => absurd hx (List.not_mem_nil _)
  | a :: l, hpq, x, hx, hqx, hpx => by
    rw [List.countP_cons, List.countP_cons]
    have hpq' : ∀ e ∈ l, p e = true → q e = true :=
      fun e he h => hpq e (List.mem_cons_of_mem _ he) h
    rcases List.mem_cons.mp hx with rfl | hx'
    · rw [hpx, hqx]
      have hle : l.countP p ≤ l.countP q := List.countP_mono_left hpq'
      rw [if_neg (by simp), if_pos rfl]
      omega
    · have hlt := countP_lt_of_mem hpq' hx' hqx hpx
      cases hpa : p a
      · cases hqa : q a <;> simp <;> omega
      · rw [hpq a (List.mem_cons_self _ _) hpa]
        simp
        omega

/-- Claim C6: ranking assigns an event with resolved date `d` the step
`(count of same-entity events with a strictly earlier present date) + 1`;
hence two same-entity events with an identical date get the same step and
two with distinct dates get distinct steps. -/
theorem c6_rank_ties_min :
    (∀ (df : List Event) (i : Nat) (d : Nat), i < df.length →
      (df.getD i default).status_date = some d →
      ((rankSteps df).getD i default).step =
        some ((df.countP (fun e =>
          e.player_id == (df.getD i default).player_id &&
            match e.status_date with
            | some d2 => decide (d2 < d)
            | none => false) : Int) + 1)) ∧
    (∀ (df : List Event) (i j : Nat) (d : Nat), i < df.length →
      j < df.length →
      (df.getD i default).player_id = (df.getD j default).player_id →
      (df.getD i default).status_date = some d →
      (df.getD j default).status_date = some d →
      ((rankSteps df).getD i default).step =
        ((rankSteps df).getD j default).step) ∧
    (∀ (df : List Event) (i j : Nat) (di dj : Nat), i < df.length →
      j < df.length →
      (df.getD i default).player_id = (df.getD j default).player_id →
      (df.getD i default).status_date = some di →
      (df.getD j default).status_date = some dj → di ≠ dj →
      ((rankSteps df).getD i default).step ≠
        ((rankSteps df).getD j default).step) := by
  have hbase : ∀ (df : List Event) (i : Nat), i < df.length →
      ((rankSteps df).getD i default).step =
        rankStep df (df.getD i default) := by
    intro df i hi
    rw [rankSteps_getD hi]
  have hkey : ∀ (df : List Event) (i : Nat) (d : Nat), i < df.length →
      (df.getD i default).status_date = some d →
      ((rankSteps df).getD i default).step =
        some (1 + (df.countP
          (earlierSamePlayer (df.getD i default).player_id d) : Int)) := by
    intro df i d hi hd
    rw [hbase df i hi]
    unfold rankStep
    rw [hd]
  have hstrict : ∀ (df : List Event) (i : Nat) (di dj : Nat),
      i < df.length → (df.getD i default).status_date = some di → di < dj →
      df.countP (earlierSamePlayer (df.getD i default).player_id di) <
        df.countP (earlierSamePlayer (df.getD i default).player_id dj) := by
    intro df i di dj hi hdi hlt
    apply countP_lt_of_mem (x := df.getD i default) ?_ (getD_mem hi) ?_ ?_
    · intro e _ h
      unfold earlierSamePlayer at h ⊢
      rw [Bool.and_eq_true] at h
      rw [Bool.and_eq_true]
      refine ⟨h.1, ?_⟩
      rcases hde : e.status_date with _ | d2
      · rw [hde] at h; cases h.2
      · rw [hde] at h
        simp only [decide_eq_true_eq] at h ⊢
        omega
    · unfold earlierSamePlayer
      rw [Bool.and_eq_true, hdi]
      simp only [beq_self_eq_true, decide_eq_true_eq]
      exact ⟨trivial, hlt⟩
    · unfold earlierSamePlayer
      rw [hdi]
      simp
  refine ⟨?_, ?_, ?_⟩
  · intro df i d hi hd
    rw [hkey df i d hi hd]
    have hcc : df.countP (earlierSamePlayer (df.getD i default).player_id d) =
        df.countP (fun e =>
          e.player_id == (df.getD i default).player_id &&
            match e.status_date with
            | some d2 => decide (d2 < d)
            | none => false) := rfl
    rw [hcc]
    congr 1
    omega
  · intro df i j d hi hj hpid hdi hdj
    rw [hkey df i d hi hdi, hkey df j d hj hdj, hpid]
  · intro df i j di dj hi hj hpid hdi hdj hne
    rw [hkey df i di hi hdi, hkey df j dj hj hdj, hpid]
    rcases Nat.lt_or_ge di dj with hlt | hge
    · have := hstrict df i di dj hi hdi hlt
      rw [hpid] at this
      intro hcontra
      rw [Option.some_inj] at hcontra
      omega
    · have hlt : dj < di := Nat.lt_of_le_of_ne hge (fun h => hne h.symm)
      have := hstrict df j dj di hj hdj hlt
      intro hcontra
      rw [Option.some_inj] at hcontra
      omega

/-- Witness for C6: in the concrete frame, rows 0 and 2 share the entity
but have distinct dates, so their ranked steps differ. -/
theorem c6_witness :
    ((rankSteps exWithMissing).getD 0 default).step ≠
      ((rankSteps exWithMissing).getD 2 default).step :=
  c6_rank_ties_min.2.2 exWithMissing 0 2 1 3 (by decide) (by decide)
    rfl rfl rfl (by decide)

/-! ## Infrastructure: rank intervals of date classes -/

theorem countP_add_le_countP {p q r : Event → Bool} :
    ∀ {l : List Event},
      (∀ e ∈ l, ¬(p e = true ∧ q e = true)) →
      (∀ e ∈ l, p e = true → r e = true) →
      (∀ e ∈ l, q e = true → r e = true) →
      l.countP p + l.countP q ≤ l.countP r
  | [], _, _, _ => by simp
  | a :: l, hd, hpr, hqr => by
    rw [List.countP_cons, List.countP_cons, List.countP_cons]
    have ih := countP_add_le_countP
      (fun e he => hd e (List.mem_cons_of_mem _ he))
      (fun e he => hpr e (List.mem_cons_of_mem _ he))
      (fun e he => hqr e (List.mem_cons_of_mem _ he))
    have hda := hd a (List.mem_cons_self _ _)
    have hpa := hpr a (List.mem_cons_self _ _)
    have hqa := hqr a (List.mem_cons_self _ _)
    cases hp : p a <;> cases hq : q a <;> simp_all <;> omega

theorem dateBefore_true_iff {d : Nat} {e : Event} :
    dateBefore d e = true ↔ ∃ d2, e.status_date = some d2 ∧ d2 < d := by
  unfold dateBefore
  rcases hde : e.status_date with _ | d2 <;> simp [hde]

theorem rnk_add_cls_le {evs : List Event} {d d' : Nat} (h : d < d') :
    rnk evs d + (cls evs d : Int) ≤ rnk evs d' := by
  unfold rnk cls
  have key := countP_add_le_countP (l := evs)
    (p := dateBefore d)
    (q := fun e => e.status_date == some d)
    (r := dateBefore d')
    ?_ ?_ ?_
  · omega
  · rintro e _ ⟨h1, h2⟩
    rw [beq_iff_eq] at h2
    obtain ⟨d2, hd2, hlt⟩ := dateBefore_true_iff.mp h1
    rw [h2] at hd2
    have : d = d2 := Option.some_inj.mp hd2
    omega
  · intro e _ h1
    obtain ⟨d2, hd2, hlt⟩ := dateBefore_true_iff.mp h1
    exact dateBefore_true_iff.mpr ⟨d2, hd2, by omega⟩
  · intro e _ h1
    rw [beq_iff_eq] at h1
    exact dateBefore_true_iff.mpr ⟨d, h1, h⟩

theorem class_interval_eq {evs : List Event} {d d' : Nat} {s : Int}
    (h1 : rnk evs d ≤ s) (h2 : s < rnk evs d + (cls evs d : Int))
    (h1' : rnk evs d' ≤ s) (h2' : s < rnk evs d' + (cls evs d' : Int)) :
    d = d' := by
  by_contra hne
  rcases Nat.lt_or_ge d d' with hlt | hge
  · have := @rnk_add_cls_le evs _ _ hlt
    omega
  · have hlt : d' < d := Nat.lt_of_le_of_ne hge (fun h => hne h.symm)
    have := @rnk_add_cls_le evs _ _ hlt
    omega

theorem cls_pos {evs : List Event} {e : Event} {d : Nat}
    (he : e ∈ evs) (hd : e.status_date = some d) : 1 ≤ cls evs d := by
  unfold cls
  have : 0 < evs.countP (fun e2 => e2.status_date == some d) :=
    List.countP_pos_iff.mpr ⟨e, he, by simp [hd]⟩
  omega

theorem rankStep_eq_rnk {evs : List Event} {pid : Int}
    (hp : ∀ e ∈ evs, e.player_id = pid) {e : Event} (he : e ∈ evs)
    {d : Nat} (hd : e.status_date = some d) :
    rankStep evs e = some (rnk evs d) := by
  have hcc : evs.countP (earlierSamePlayer e.player_id d) =
      evs.countP (dateBefore d) := by
    apply List.countP_congr
    intro e2 he2
    simp [earlierSamePlayer, dateBefore, hp e2 he2, hp e he]
  unfold rankStep
  rw [hd]
  dsimp only
  unfold rnk
  rw [hcc]

theorem rankInv_init {evs : List Event} {pid : Int}
    (hp : ∀ e ∈ evs, e.player_id = pid) : RankInv evs (rankSteps evs) := by
  refine ⟨by simp [rankSteps], fun i hi => ?_⟩
  rw [rankSteps_getD hi]
  dsimp only
  constructor
  · intro hnone
    unfold rankStep
    rw [hnone]
  · intro d hd
    rw [rankStep_eq_rnk hp (getD_mem hi) hd]
    refine ⟨rnk evs d, rfl, le_refl _, ?_⟩
    have := cls_pos (getD_mem hi) hd
    omega

theorem goodStep_of_mem {evs : List Event} {pid : Int}
    (hp : ∀ e ∈ evs, e.player_id = pid) {s : Int}
    (hs : s ∈ dupStepsOrder (rankSteps evs)) : GoodStep evs s := by
  unfold dupStepsOrder at hs
  obtain ⟨q, hq, rfl⟩ := List.mem_map.mp hs
  have h3 := (mem_dupGroups hq).2.2
  obtain ⟨e1, he1, hstep⟩ := List.mem_map.mp h3
  obtain ⟨e0, he0, rfl⟩ := List.mem_map.mp he1
  have hstep' : rankStep evs e0 = some q.1 := hstep
  rcases hd : e0.status_date with _ | d
  · have hnone : rankStep evs e0 = none := by unfold rankStep; rw [hd]
    rw [hnone] at hstep'
    cases hstep'
  · have hr := rankStep_eq_rnk hp he0 hd
    rw [hr] at hstep'
    exact ⟨d, (Option.some_inj.mp hstep').symm, e0, he0, hd⟩

theorem rankInv_resolveGroup {evs df : List Event} {s : Int}
    (hg : GoodStep evs s) (hinv : RankInv evs df) :
    RankInv evs (resolveGroup df s) := by
  obtain ⟨d, rfl, e0, he0, hd0⟩ := hg
  have hlen := hinv.1
  have hclspos : 1 ≤ cls evs d := cls_pos he0 hd0
  have hdate : ∀ i ∈ stepIndices df (rnk evs d),
      i < evs.length ∧ (evs.getD i default).status_date = some d := by
    intro i hi
    obtain ⟨hilt, histep⟩ := mem_stepIndices hi
    have hilt' : i < evs.length := by omega
    refine ⟨hilt', ?_⟩
    rcases hdi : (evs.getD i default).status_date with _ | di
    · have := (hinv.2 i hilt').1 hdi
      rw [this] at histep
      cases histep
    · obtain ⟨si, hsi, hb1, hb2⟩ := (hinv.2 i hilt').2 di hdi
      rw [histep] at hsi
      have hsieq : rnk evs d = si := Option.some_inj.mp hsi
      have hdeq : di = d :=
        class_interval_eq hb1 hb2 (le_of_eq hsieq) (by omega)
      rw [hdeq]
  have hlensub : (stepIndices df (rnk evs d)).length ≤ cls evs d := by
    have hsub : stepIndices df (rnk evs d) ⊆
        idxsWhere (fun e => e.status_date == some d) evs := by
      intro i hi
      rw [mem_idxsWhere]
      have h2 := (hdate i hi).2
      exact ⟨(hdate i hi).1, by simpa using h2⟩
    have hle := (List.subperm_of_subset nodup_idxsWhere hsub).length_le
    have hcls : (idxsWhere (fun e => e.status_date == some d) evs).length =
        cls evs d := by
      rw [length_idxsWhere]
      rfl
    rw [← hcls]
    exact hle
  unfold resolveGroup
  refine foldl_inv ?_ hinv
  intro acc p hp' hacc
  unfold tryPermutation
  split
  · have hperm := perm_of_mem_perms hp'
    have hpnodup : p.Nodup := hperm.nodup_iff.mpr nodup_idxsWhere
    have hplen : p.length = (stepIndices df (rnk evs d)).length :=
      hperm.length_eq
    refine ⟨?_, fun i hi => ⟨?_, ?_⟩⟩
    · rw [length_assignResolved, hacc.1]
    · intro hnone
      have hnotmem : i ∉ p := by
        intro hmem
        have hds := (hdate i (hperm.mem_iff.mp hmem)).2
        rw [hnone] at hds
        cases hds
      rw [assignResolved_getD_not_mem hnotmem]
      exact (hacc.2 i hi).1 hnone
    · intro di hdi
      by_cases hmem : i ∈ p
      · have hidups := hperm.mem_iff.mp hmem
        have hdeq : di = d := by
          have hds := (hdate i hidups).2
          rw [hdi] at hds
          exact Option.some_inj.mp hds
        subst hdeq
        have hilen : i < acc.length := by
          rw [hacc.1]
          exact hi
        obtain ⟨m, hm, heq⟩ := assignResolved_getD_mem hpnodup hmem hilen
        refine ⟨rnk evs di + (m : Int), ?_, by omega, ?_⟩
        · rw [heq]
        · have hmle : p.length ≤ cls evs di := by
            rw [hplen]
            exact hlensub
          omega
      · rw [assignResolved_getD_not_mem hmem]
        exact (hacc.2 i hi).2 di hdi
  · exact hacc

theorem rankInv_resolveLoop {evs : List Event} {pid : Int}
    (hp : ∀ e ∈ evs, e.player_id = pid) :
    RankInv evs (resolveLoop (rankSteps evs)) := by
  unfold resolveLoop
  refine foldl_inv ?_ (rankInv_init hp)
  intro acc s hs hinv
  exact rankInv_resolveGroup (goodStep_of_mem hp hs) hinv

/-- Claim C5: for two same-entity events with present, distinct resolved
dates, the earlier-dated event carries a strictly smaller step than the
later-dated one — both right after the initial ranking and in any frame
reconciliation returns (so reconciliation never inverts known-distinct
dates; only same-date events can be reordered). -/
theorem c5_order_preservation (evs : List Event) (pid : Int)
    (hp : ∀ e ∈ evs, e.player_id = pid) (i j : Nat) (di dj : Nat)
    (hi : i < evs.length) (hj : j < evs.length)
    (hdi : (evs.getD i default).status_date = some di)
    (hdj : (evs.getD j default).status_date = some dj) (hlt : di < dj) :
    (∃ si sj, ((rankSteps evs).getD i default).step = some si ∧
      ((rankSteps evs).getD j default).step = some sj ∧ si < sj) ∧
    ∀ out, resolve_duplicate_steps (rankSteps evs) = Except.ok out →
      ∃ si sj, (out.getD i default).step = some si ∧
        (out.getD j default).step = some sj ∧ si < sj := by
  have key : ∀ df, RankInv evs df →
      ∃ si sj, (df.getD i default).step = some si ∧
        (df.getD j default).step = some sj ∧ si < sj := by
    intro df hinv
    obtain ⟨si, hsi, hb1, hb2⟩ := (hinv.2 i hi).2 di hdi
    obtain ⟨sj, hsj, hb1', hb2'⟩ := (hinv.2 j hj).2 dj hdj
    have := @rnk_add_cls_le evs _ _ hlt
    exact ⟨si, sj, hsi, hsj, by omega⟩
  refine ⟨key _ (rankInv_init hp), fun out hout => ?_⟩
  obtain ⟨hrfl, _⟩ := resolve_ok_out hout
  rw [hrfl]
  exact key _ (rankInv_resolveLoop hp)

/-- Witness for C5 on the concrete scenario frame: its first and last
events have distinct dates and end up with ordered steps. -/
theorem c5_witness :
    ∃ si sj, ((rankSteps exTimeline).getD 0 default).step = some si ∧
      ((rankSteps exTimeline).getD 4 default).step = some sj ∧ si < sj :=
  (c5_order_preservation exTimeline 1 (by decide) 0 4 10 30 (by decide)
    (by decide) rfl rfl (by decide)).1
